import Mathlib

/-
  Verification development for the conjecture-rust core
  (src/conjecture-rust in the HypothesisWorks/hypothesis repository).

  The Rust sources are shallowly embedded: machine integers (u64, usize)
  become Nat, with explicit masking (mod 2 ^ n) exactly where the source
  masks; Vec becomes List; HashSet of indices becomes Finset Nat;
  fallible operations return Option or Except; the stateful FnMut
  criterion of the integer minimizer is modelled by explicit state
  passing.
-/

namespace Conjecture

/-- Status of one test execution (data.rs, enum Status). -/
inductive Status where
  | overflow : Status
  | invalid : Status
  | valid : Status
  | interesting : Nat → Status
deriving DecidableEq, Repr

/-- A draw still being recorded (data.rs, struct DrawInProgress). -/
structure DrawInProgress where
  depth : Nat
  start : Nat
  stop : Option Nat
deriving DecidableEq, Repr

/-- A completed draw (data.rs, struct Draw).  The source field named end
is renamed to stop because end is a keyword in Lean. -/
structure Draw where
  depth : Nat
  start : Nat
  stop : Nat
deriving DecidableEq, Repr

/-- The bit generator of a data source (data.rs, enum BitGenerator).
The source wraps a ChaChaRng, an external PRNG from the rand crate; it
is abstracted here as an arbitrary stream of u64 words together with a
cursor counting how many words have been consumed.  The recorded variant
is a buffer of words, exactly as in the source. -/
inductive BitGenerator where
  | random : (Nat → Nat) → Nat → BitGenerator
  | recorded : List Nat → BitGenerator

/-- A data source (data.rs, struct DataSource). -/
structure DataSource where
  bitgenerator : BitGenerator
  record : List Nat
  sizes : List Nat
  draws : List DrawInProgress
  drawStack : List Nat
  writtenIndices : Finset Nat

/-- DataSource::new. -/
def DataSource.new (generator : BitGenerator) : DataSource :=
  { bitgenerator := generator
    record := []
    sizes := []
    draws := []
    drawStack := []
    writtenIndices := ∅ }

/-- DataSource::from_random.  The ChaChaRng seeded from the engine seed
is abstracted as a stream with cursor 0. -/
def DataSource.fromRandom (stream : Nat → Nat) : DataSource :=
  DataSource.new (BitGenerator.random stream 0)

/-- DataSource::from_vec. -/
def DataSource.fromVec (record : List Nat) : DataSource :=
  DataSource.new (BitGenerator.recorded record)

/-- DataSource::start_draw. -/
def DataSource.startDraw (d : DataSource) : DataSource :=
  let i := d.draws.length
  let depth := d.drawStack.length
  let start := d.record.length
  { d with
    drawStack := d.drawStack ++ [i]
    draws := d.draws ++ [{ start := start, stop := none, depth := depth }] }

/-- DataSource::stop_draw.  The source asserts that the draw stack is
nonempty; an assertion failure (a Rust panic) is modelled as none. -/
def DataSource.stopDraw (d : DataSource) : Option DataSource :=
  if d.draws.isEmpty ∨ d.drawStack.isEmpty then none
  else
    match d.drawStack.getLast? with
    | none => none
    | some i =>
        let stop := d.record.length
        some { d with
               drawStack := d.drawStack.dropLast
               draws := d.draws.modify (fun dip => { dip with stop := some stop }) i }

/-- DataSource::write.  On a recorded generator whose buffer is already
fully consumed the call fails with FailedDraw (modelled as none in the
first component) and the source is unchanged; otherwise 0 is pushed to
sizes and the value, unmasked, to record.  Mirroring the source, the
position of the value is NOT inserted into written_indices. -/
def DataSource.write (d : DataSource) (value : Nat) : Option Unit × DataSource :=
  match d.bitgenerator with
  | BitGenerator.recorded v =>
      if v.length ≤ d.record.length then (none, d)
      else (some (), { d with sizes := d.sizes ++ [0], record := d.record ++ [value] })
  | BitGenerator.random _ _ =>
      (some (), { d with sizes := d.sizes ++ [0], record := d.record ++ [value] })

/-- DataSource::bits.  The bit width is pushed to sizes first; only then
is the generator consulted, so a FailedDraw on an exhausted recorded
buffer (modelled as none) leaves sizes one element longer than record.
Masking to the n low bits, performed in the source only for n_bits < 64,
is mod 2 ^ n_bits; next_u64 of the abstracted PRNG is the stream value
reduced mod 2 ^ 64. -/
def DataSource.bits (d : DataSource) (nBits : Nat) : Option Nat × DataSource :=
  let d := { d with sizes := d.sizes ++ [nBits] }
  match d.bitgenerator with
  | BitGenerator.random stream k =>
      let result := stream k % 2 ^ 64
      let d := { d with bitgenerator := BitGenerator.random stream (k + 1) }
      let result := if nBits < 64 then result % 2 ^ nBits else result
      (some result, { d with record := d.record ++ [result] })
  | BitGenerator.recorded v =>
      if h : d.record.length < v.length then
        let result := v.get ⟨d.record.length, h⟩
        let result := if nBits < 64 then result % 2 ^ nBits else result
        (some result, { d with record := d.record ++ [result] })
      else (none, d)

/-- A test result (data.rs, struct TestResult). -/
structure TestResult where
  record : List Nat
  status : Status
  draws : List Draw
  sizes : List Nat
  writtenIndices : Finset Nat
deriving DecidableEq

/-- DataSource::into_result.  Completed draws with start < end are kept;
the source asserts status Invalid or Overflow whenever it meets an
unclosed draw, so a conversion that would trip that assertion is none. -/
def DataSource.intoResult (d : DataSource) (status : Status) : Option TestResult :=
  if d.draws.any (fun dip => dip.stop.isNone) ∧
      ¬(status = Status.invalid ∨ status = Status.overflow) then
    none
  else
    some { record := d.record
           status := status
           writtenIndices := d.writtenIndices
           sizes := d.sizes
           draws := d.draws.filterMap (fun dip =>
             match dip.stop with
             | some e => if dip.start < e then some ⟨dip.depth, dip.start, e⟩ else none
             | none => none) }

/-- Lexicographic comparison of word buffers, as the Ord instance of
Vec of u64 behaves in Rust: elementwise comparison first, a strict
prefix comparing less. -/
def lexCmp : List Nat → List Nat → Ordering
  | [], [] => Ordering.eq
  | [], _ :: _ => Ordering.lt
  | _ :: _, [] => Ordering.gt
  | a :: as_, b :: bs => (compare a b).then (lexCmp as_ bs)

/-- Ord for TestResult (data.rs): compare record lengths, then the
records themselves. -/
def TestResult.cmp (a b : TestResult) : Ordering :=
  (compare a.record.length b.record.length).then (lexCmp a.record b.record)

/-- The strict order on test results induced by TestResult.cmp. -/
def TestResult.lt (a b : TestResult) : Prop :=
  TestResult.cmp a b = Ordering.lt

instance : DecidablePred fun p : TestResult × TestResult => TestResult.lt p.1 p.2 :=
  fun _ => by unfold TestResult.lt; infer_instance

instance (a b : TestResult) : Decidable (TestResult.lt a b) := by
  unfold TestResult.lt; infer_instance

/-! ## Integer minimizer (intminimize.rs)

The criterion passed to minimize_integer is an FnMut closure returning
Result of bool and an error type: it may carry mutable state and may
fail.  It is embedded as a state-passing function.  The one unbounded
loop of the source (the right-shift descent) is given explicit fuel;
running out of fuel corresponds to the divergence of that loop, which
happens only when best reaches 0 and the criterion keeps answering
true there.  Every other loop of the source is structurally bounded.
-/

/-- A criterion: Rust FnMut(u64) -> Result(bool, epsilon), with the
closure state made explicit. -/
def Crit (σ ε : Type) : Type := Nat → σ → Except ε (Bool × σ)

/-- Outcome of a minimize_integer run: normal return, criterion error,
failure of the internal assert (a Rust panic), or shift-loop fuel
exhaustion (divergence of the source). -/
inductive MOut (σ ε : Type) where
  | ok : Nat → σ → MOut σ ε
  | err : ε → MOut σ ε
  | assertFailed : MOut σ ε
  | fuelOut : MOut σ ε
deriving DecidableEq

/-- The SMALL constant of intminimize.rs. -/
def SMALL : Nat := 5

/-- Minimizer::test.  A candidate equal to best is accepted without
consulting the criterion; a candidate above best is rejected without
consulting it; otherwise the criterion decides and best is lowered to
the candidate exactly when it answers true. -/
def testM (crit : Crit σ ε) (best candidate : Nat) (s : σ) :
    Except ε (Bool × Nat × σ) :=
  if candidate = best then Except.ok (true, best, s)
  else if best < candidate then Except.ok (false, best, s)
  else
    match crit candidate s with
    | Except.error e => Except.error e
    | Except.ok (r, s1) => Except.ok (r, if r then candidate else best, s1)

/-- The small-probe loop of minimize_integer: the criterion is called
directly (not through Minimizer::test) on each element in turn; the
first accepted probe is returned. -/
def probesM (crit : Crit σ ε) : List Nat → σ → Except ε (Option Nat × σ)
  | [], s => Except.ok (none, s)
  | i :: rest, s =>
      match crit i s with
      | Except.error e => Except.error e
      | Except.ok (true, s1) => Except.ok (some i, s1)
      | Except.ok (false, s1) => probesM crit rest s1

/-- The right-shift descent: repeatedly test best over 2 (best shifted
right by one) until the test fails.  Fuel none = the loop of the source
never exits (possible only once best = 0, since the test is then a
self-test that always succeeds). -/
def shiftLoopM (crit : Crit σ ε) : Nat → Nat → σ → Except ε (Option (Nat × σ))
  | 0, _, _ => Except.ok none
  | fuel + 1, best, s =>
      match testM crit best (best / 2) s with
      | Except.error e => Except.error e
      | Except.ok (true, b1, s1) => shiftLoopM crit fuel b1 s1
      | Except.ok (false, b1, s1) => Except.ok (some (b1, s1))

/-- A sequence of Minimizer::modify calls: each transformation is
applied to the current best and tested; the boolean result is ignored. -/
def modifySeqM (crit : Crit σ ε) : List (Nat → Nat) → Nat → σ → Except ε (Nat × σ)
  | [], best, s => Except.ok (best, s)
  | g :: gs, best, s =>
      match testM crit best (g best) s with
      | Except.error e => Except.error e
      | Except.ok (_, b1, s1) => modifySeqM crit gs b1 s1

/-- The transformations of the single-bit-clear pass: x XOR (1 shifted
left by i), for i = 0 to 63 in order. -/
def xorGs : List (Nat → Nat) :=
  (List.range 64).map (fun i x => x ^^^ (1 <<< i))

/-- The candidate of one bit-sort step: with the left mask bit set and
the right mask bit clear in x, swap them; otherwise leave x unchanged. -/
def sortCand (leftMask rightMask x : Nat) : Nat :=
  if x &&& leftMask = 0 ∨ x &&& rightMask ≠ 0 then x
  else x ^^^ (rightMask ||| leftMask)

/-- The transformations of the bit-sort pass: for i = 0 to 63, the right
mask starts at left shifted right by one and halves down to 1, that is
j = i - 1 down to 0. -/
def sortGs : List (Nat → Nat) :=
  (List.range 64).flatMap (fun i =>
    ((List.range i).reverse).map (fun j => sortCand (1 <<< i) (1 <<< j)))

/-- The final binary search: while lo + 1 < hi, test the midpoint; on
success move hi (and best) down to it, otherwise move lo up.  The gap
hi - lo shrinks strictly every iteration, so fuel above the initial gap
can never run out; the fuel form keeps the definition structurally
recursive. -/
def binSearchM (crit : Crit σ ε) : Nat → Nat → Nat → Nat → σ → Except ε (Option (Nat × σ))
  | 0, _, _, _, _ => Except.ok none
  | fuel + 1, best, lo, hi, s =>
      if lo + 1 < hi then
        match testM crit best (lo + (hi - lo) / 2) s with
        | Except.error e => Except.error e
        | Except.ok (true, b1, s1) => binSearchM crit fuel b1 lo (lo + (hi - lo) / 2) s1
        | Except.ok (false, b1, s1) => binSearchM crit fuel b1 (lo + (hi - lo) / 2) hi s1
      else Except.ok (some (best, s))

/-- minimize_integer (intminimize.rs).  The phases in source order:
zero short-circuit, small probes, right-shift descent, single-bit
clear, the assert that best is at least SMALL, bit sort, decrement
probe, binary search.  The decrement candidate best - 1 uses Nat
subtraction; at that point best is at least 1 in every reachable state
(the assert enforces best at least SMALL and the bit-sort candidates
are positive), so it agrees with u64 subtraction. -/
def minimizeIntegerM (fuel start : Nat) (crit : Crit σ ε) (s : σ) : MOut σ ε :=
  if start = 0 then MOut.ok start s
  else
    match probesM crit (List.range (min start SMALL)) s with
    | Except.error e => MOut.err e
    | Except.ok (some i, s1) => MOut.ok i s1
    | Except.ok (none, s1) =>
      if start ≤ SMALL then MOut.ok start s1
      else
        match shiftLoopM crit fuel start s1 with
        | Except.error e => MOut.err e
        | Except.ok none => MOut.fuelOut
        | Except.ok (some (b1, s2)) =>
          match modifySeqM crit xorGs b1 s2 with
          | Except.error e => MOut.err e
          | Except.ok (b2, s3) =>
            if b2 < SMALL then MOut.assertFailed
            else
              match modifySeqM crit sortGs b2 s3 with
              | Except.error e => MOut.err e
              | Except.ok (b3, s4) =>
                match testM crit b3 (b3 - 1) s4 with
                | Except.error e => MOut.err e
                | Except.ok (false, b4, s5) => MOut.ok b4 s5
                | Except.ok (true, b4, s5) =>
                  match binSearchM crit (b4 + 1) b4 0 b4 s5 with
                  | Except.error e => MOut.err e
                  | Except.ok none => MOut.fuelOut
                  | Except.ok (some (b5, s6)) => MOut.ok b5 s6

/-- A deterministic predicate, as a stateless never-failing criterion. -/
def pureCrit (p : Nat → Bool) : Crit Unit Empty :=
  fun x _ => Except.ok (p x, ())

/-- minimize_integer specialized to a deterministic predicate.  Shift
fuel start + 1 is always sufficient for a terminating run: each
continuing iteration strictly lowers a positive best, so after at most
start iterations the loop has either exited or reached the diverging
state best = 0. -/
def minimizeInteger (start : Nat) (p : Nat → Bool) : Option Nat :=
  match minimizeIntegerM (start + 1) start (pureCrit p) () with
  | MOut.ok v _ => some v
  | _ => none

end Conjecture


namespace Conjecture

variable {σ ε : Type}

theorem testM_best_le {crit : Crit σ ε} {best c : Nat} {s : σ} {r : Bool} {b1 : Nat} {s1 : σ}
    (h : testM crit best c s = Except.ok (r, b1, s1)) : b1 ≤ best := by
  unfold testM at h
  by_cases h1 : c = best
  · rw [if_pos h1] at h; cases h; exact Nat.le_refl _
  rw [if_neg h1] at h
  by_cases h2 : best < c
  · rw [if_pos h2] at h; cases h; exact Nat.le_refl _
  rw [if_neg h2] at h
  cases hc : crit c s with
  | error e => rw [hc] at h; cases h
  | ok rs =>
      obtain ⟨r0, s0⟩ := rs
      rw [hc] at h
      dsimp only at h
      cases h
      have hcb : c ≤ best := Nat.le_of_not_lt h2
      split <;> omega

theorem probesM_some_mem {crit : Crit σ ε} :
    ∀ (l : List Nat) (s : σ) (i : Nat) (s1 : σ),
      probesM crit l s = Except.ok (some i, s1) → i ∈ l := by
  intro l
  induction l with
  | nil => intro s i s1 h; cases h
  | cons a rest ih =>
      intro s i s1 h
      unfold probesM at h
      cases hc : crit a s with
      | error e => rw [hc] at h; cases h
      | ok rs =>
          obtain ⟨r0, s0⟩ := rs
          rw [hc] at h
          cases r0 with
          | true => cases h; exact List.mem_cons_self a rest
          | false => exact List.mem_cons_of_mem a (ih s0 i s1 h)

theorem shiftLoopM_some_le {crit : Crit σ ε} :
    ∀ (fuel best : Nat) (s : σ) (b1 : Nat) (s1 : σ),
      shiftLoopM crit fuel best s = Except.ok (some (b1, s1)) → b1 ≤ best := by
  intro fuel
  induction fuel with
  | zero => intro best s b1 s1 h; cases h
  | succ n ih =>
      intro best s b1 s1 h
      unfold shiftLoopM at h
      cases ht : testM crit best (best / 2) s with
      | error e => rw [ht] at h; cases h
      | ok rs =>
          obtain ⟨r0, b0, s0⟩ := rs
          rw [ht] at h
          cases r0 with
          | true => exact Nat.le_trans (ih b0 s0 b1 s1 h) (testM_best_le ht)
          | false => cases h; exact testM_best_le ht

theorem modifySeqM_le {crit : Crit σ ε} :
    ∀ (gs : List (Nat → Nat)) (best : Nat) (s : σ) (b1 : Nat) (s1 : σ),
      modifySeqM crit gs best s = Except.ok (b1, s1) → b1 ≤ best := by
  intro gs
  induction gs with
  | nil => intro best s b1 s1 h; cases h; exact Nat.le_refl _
  | cons g rest ih =>
      intro best s b1 s1 h
      unfold modifySeqM at h
      cases ht : testM crit best (g best) s with
      | error e => rw [ht] at h; cases h
      | ok rs =>
          obtain ⟨r0, b0, s0⟩ := rs
          rw [ht] at h
          exact Nat.le_trans (ih b0 s0 b1 s1 h) (testM_best_le ht)

theorem binSearchM_some_le {crit : Crit σ ε} :
    ∀ (fuel best lo hi : Nat) (s : σ) (b1 : Nat) (s1 : σ),
      binSearchM crit fuel best lo hi s = Except.ok (some (b1, s1)) → b1 ≤ best := by
  intro fuel
  induction fuel with
  | zero => intro best lo hi s b1 s1 h; cases h
  | succ n ih =>
      intro best lo hi s b1 s1 h
      unfold binSearchM at h
      split at h
      · cases ht : testM crit best (lo + (hi - lo) / 2) s with
        | error e => rw [ht] at h; cases h
        | ok rs =>
            obtain ⟨r0, b0, s0⟩ := rs
            rw [ht] at h
            cases r0 with
            | true => exact Nat.le_trans (ih b0 lo _ s0 b1 s1 h) (testM_best_le ht)
            | false => exact Nat.le_trans (ih b0 _ hi s0 b1 s1 h) (testM_best_le ht)
      · cases h; exact Nat.le_refl _

theorem minimizeIntegerM_ok_le {fuel start : Nat} {crit : Crit σ ε} {s : σ}
    {v : Nat} {s1 : σ} (h : minimizeIntegerM fuel start crit s = MOut.ok v s1) :
    v ≤ start := by
  unfold minimizeIntegerM at h
  by_cases h0 : start = 0
  · rw [if_pos h0] at h; cases h; exact Nat.le_refl _
  rw [if_neg h0] at h
  cases hp : probesM crit (List.range (min start SMALL)) s with
  | error e => rw [hp] at h; cases h
  | ok pr =>
      obtain ⟨oi, s2⟩ := pr
      rw [hp] at h
      cases oi with
      | some i =>
          cases h
          have hm := probesM_some_mem _ _ _ _ hp
          have : v < min start SMALL := List.mem_range.mp hm
          omega
      | none =>
          dsimp only at h
          by_cases hsm : start ≤ SMALL
          · rw [if_pos hsm] at h; cases h; exact Nat.le_refl _
          rw [if_neg hsm] at h
          cases hs : shiftLoopM crit fuel start s2 with
          | error e => rw [hs] at h; cases h
          | ok os =>
              rw [hs] at h
              cases os with
              | none => cases h
              | some bs =>
                  obtain ⟨b1, s3⟩ := bs
                  dsimp only at h
                  have hb1 : b1 ≤ start := shiftLoopM_some_le _ _ _ _ _ hs
                  cases hx : modifySeqM crit xorGs b1 s3 with
                  | error e => rw [hx] at h; cases h
                  | ok bx =>
                      obtain ⟨b2, s4⟩ := bx
                      rw [hx] at h
                      dsimp only at h
                      have hb2 : b2 ≤ b1 := modifySeqM_le _ _ _ _ _ hx
                      by_cases hlt : b2 < SMALL
                      · rw [if_pos hlt] at h; cases h
                      rw [if_neg hlt] at h
                      cases hso : modifySeqM crit sortGs b2 s4 with
                      | error e => rw [hso] at h; cases h
                      | ok bs2 =>
                          obtain ⟨b3, s5⟩ := bs2
                          rw [hso] at h
                          dsimp only at h
                          have hb3 : b3 ≤ b2 := modifySeqM_le _ _ _ _ _ hso
                          cases hd : testM crit b3 (b3 - 1) s5 with
                          | error e => rw [hd] at h; cases h
                          | ok rd =>
                              obtain ⟨r0, b4, s6⟩ := rd
                              rw [hd] at h
                              have hb4 : b4 ≤ b3 := testM_best_le hd
                              cases r0 with
                              | false => cases h; omega
                              | true =>
                                  dsimp only at h
                                  cases hbin : binSearchM crit (b4 + 1) b4 0 b4 s6 with
                                  | error e => rw [hbin] at h; cases h
                                  | ok ob =>
                                      rw [hbin] at h
                                      cases ob with
                                      | none => cases h
                                      | some bb =>
                                          obtain ⟨b5, s7⟩ := bb
                                          dsimp only at h
                                          cases h
                                          have := binSearchM_some_le _ _ _ _ _ _ _ hbin
                                          omega

end Conjecture

namespace Conjecture

theorem probesM_pure_none {p : Nat → Bool} :
    ∀ (l : List Nat) (s s1 : Unit),
      probesM (pureCrit p) l s = Except.ok (none, s1) → ∀ i ∈ l, p i = false := by
  intro l
  induction l with
  | nil => intro s s1 _ i hi; cases hi
  | cons a rest ih =>
      intro s s1 h i hi
      unfold probesM pureCrit at h
      cases hpa : p a with
      | true => rw [hpa] at h; cases h
      | false =>
          rw [hpa] at h
          rcases List.mem_cons.mp hi with rfl | hm
          · exact hpa
          · exact ih _ _ h i hm

theorem testM_pure_small_le {p : Nat → Bool} {best c : Nat} {s : Unit}
    {r : Bool} {b1 : Nat} {s1 : Unit} (hp : ∀ i, i < SMALL → p i = false)
    (hb : SMALL ≤ best) (h : testM (pureCrit p) best c s = Except.ok (r, b1, s1)) :
    SMALL ≤ b1 := by
  unfold testM pureCrit at h
  by_cases h1 : c = best
  · rw [if_pos h1] at h; cases h; omega
  rw [if_neg h1] at h
  by_cases h2 : best < c
  · rw [if_pos h2] at h; cases h; omega
  rw [if_neg h2] at h
  dsimp only at h
  cases h
  cases hpc : p c with
  | true =>
      have hcs : SMALL ≤ c := by
        by_contra hlt
        have hf := hp c (Nat.lt_of_not_le hlt)
        rw [hpc] at hf
        cases hf
      rw [if_pos rfl]
      exact hcs
  | false =>
      rw [if_neg (by decide)]
      exact hb

theorem shiftLoopM_pure_small_le {p : Nat → Bool} (hp : ∀ i, i < SMALL → p i = false) :
    ∀ (fuel best : Nat) (s : Unit) (b1 : Nat) (s1 : Unit),
      SMALL ≤ best →
      shiftLoopM (pureCrit p) fuel best s = Except.ok (some (b1, s1)) → SMALL ≤ b1 := by
  intro fuel
  induction fuel with
  | zero => intro best s b1 s1 _ h; cases h
  | succ n ih =>
      intro best s b1 s1 hb h
      unfold shiftLoopM at h
      cases ht : testM (pureCrit p) best (best / 2) s with
      | error e => rw [ht] at h; cases h
      | ok rs =>
          obtain ⟨r0, b0, s0⟩ := rs
          rw [ht] at h
          cases r0 with
          | true => exact ih b0 s0 b1 s1 (testM_pure_small_le hp hb ht) h
          | false => cases h; exact testM_pure_small_le hp hb ht

theorem modifySeqM_pure_small_le {p : Nat → Bool} (hp : ∀ i, i < SMALL → p i = false) :
    ∀ (gs : List (Nat → Nat)) (best : Nat) (s : Unit) (b1 : Nat) (s1 : Unit),
      SMALL ≤ best →
      modifySeqM (pureCrit p) gs best s = Except.ok (b1, s1) → SMALL ≤ b1 := by
  intro gs
  induction gs with
  | nil => intro best s b1 s1 hb h; cases h; omega
  | cons g rest ih =>
      intro best s b1 s1 hb h
      unfold modifySeqM at h
      cases ht : testM (pureCrit p) best (g best) s with
      | error e => rw [ht] at h; cases h
      | ok rs =>
          obtain ⟨r0, b0, s0⟩ := rs
          rw [ht] at h
          exact ih b0 s0 b1 s1 (testM_pure_small_le hp hb ht) h

/-- Claim C10: with start above 5 and a deterministic predicate, the
internal assert that best is at least SMALL cannot fail: once the small
probes 0 to 4 have all answered false, no pass can lower best below 5,
so the run never produces the assertFailed outcome. -/
theorem minimize_integer_assert_unreachable (p : Nat → Bool) (fuel start : Nat)
    (hstart : 5 < start) :
    minimizeIntegerM fuel start (pureCrit p) () ≠ MOut.assertFailed := by
  intro h
  unfold minimizeIntegerM at h
  rw [if_neg (by omega : ¬ start = 0)] at h
  cases hp : probesM (pureCrit p) (List.range (min start SMALL)) () with
  | error e => rw [hp] at h; cases h
  | ok pr =>
      obtain ⟨oi, s2⟩ := pr
      rw [hp] at h
      cases oi with
      | some i => cases h
      | none =>
          dsimp only at h
          rw [if_neg (by unfold SMALL; omega : ¬ start ≤ SMALL)] at h
          have hmin : min start SMALL = SMALL := by unfold SMALL; omega
          have hsmall : ∀ i, i < SMALL → p i = false := by
            intro i hi
            exact probesM_pure_none _ _ _ hp i (by rw [hmin]; exact List.mem_range.mpr hi)
          cases hs : shiftLoopM (pureCrit p) fuel start s2 with
          | error e => rw [hs] at h; cases h
          | ok os =>
              rw [hs] at h
              cases os with
              | none => cases h
              | some bs =>
                  obtain ⟨b1, s3⟩ := bs
                  dsimp only at h
                  have hb1 : SMALL ≤ b1 :=
                    shiftLoopM_pure_small_le hsmall _ _ _ _ _ (by unfold SMALL; omega) hs
                  cases hx : modifySeqM (pureCrit p) xorGs b1 s3 with
                  | error e => rw [hx] at h; cases h
                  | ok bx =>
                      obtain ⟨b2, s4⟩ := bx
                      rw [hx] at h
                      dsimp only at h
                      have hb2 : SMALL ≤ b2 := modifySeqM_pure_small_le hsmall _ _ _ _ _ hb1 hx
                      rw [if_neg (by omega : ¬ b2 < SMALL)] at h
                      cases hso : modifySeqM (pureCrit p) sortGs b2 s4 with
                      | error e => rw [hso] at h; cases h
                      | ok bs2 =>
                          obtain ⟨b3, s5⟩ := bs2
                          rw [hso] at h
                          dsimp only at h
                          cases hd : testM (pureCrit p) b3 (b3 - 1) s5 with
                          | error e => rw [hd] at h; cases h
                          | ok rd =>
                              obtain ⟨r0, b4, s6⟩ := rd
                              rw [hd] at h
                              cases r0 with
                              | false => cases h
                              | true =>
                                  dsimp only at h
                                  cases hbin : binSearchM (pureCrit p) (b4 + 1) b4 0 b4 s6 with
                                  | error e => rw [hbin] at h; cases h
                                  | ok ob =>
                                      rw [hbin] at h
                                      cases ob with
                                      | none => cases h
                                      | some bb => obtain ⟨b5, s7⟩ := bb; cases h

/-- Witness for C10 at start 6 and the constantly false predicate. -/
theorem minimize_integer_assert_unreachable_witness :
    5 < 6 ∧ minimizeIntegerM 10 6 (pureCrit fun _ => false) () ≠ MOut.assertFailed :=
  ⟨by decide, minimize_integer_assert_unreachable (fun _ => false) 10 6 (by decide)⟩

end Conjecture

namespace Conjecture

/-- Claim C9: whenever minimize_integer returns Ok(v), v is at most the
starting value, for every criterion (stateful or failing included); and
with start 0 it returns 0 at once, leaving the criterion state untouched
(the criterion is never called). -/
theorem minimize_integer_le_start {σ ε : Type} (fuel start : Nat)
    (crit : Crit σ ε) (s : σ) :
    (∀ v s1, minimizeIntegerM fuel start crit s = MOut.ok v s1 → v ≤ start) ∧
    minimizeIntegerM fuel 0 crit s = MOut.ok 0 s :=
  ⟨fun _ _ h => minimizeIntegerM_ok_le h, rfl⟩

set_option maxRecDepth 8000 in
/-- Witness for C9 on a concrete run: start 6 with the constantly false
pure criterion returns Ok 6, and the theorem bounds it by 6; the zero
case returns Ok 0 with untouched state. -/
theorem minimize_integer_le_start_witness :
    minimizeIntegerM 10 6 (pureCrit fun _ => false) () = MOut.ok 6 () ∧
    6 ≤ 6 ∧
    minimizeIntegerM 10 0 (pureCrit fun _ => false) () = MOut.ok 0 () := by
  refine ⟨by decide, ?_, ?_⟩
  · exact (minimize_integer_le_start 10 6 (pureCrit fun _ => false) ()).1 6 () (by decide)
  · exact (minimize_integer_le_start 10 0 (pureCrit fun _ => false) ()).2

/-- The deterministic predicate accepting exactly 5, 10 and 12, used to
refute idempotence of minimize_integer. -/
def p512 : Nat → Bool := fun x => (x == 5) || (x == 10) || (x == 12)

set_option maxRecDepth 8000 in
/-- Counterexample to claim C5: with the deterministic predicate p512
and start 12, minimize_integer returns 10 (found by the bit-sort pass),
but re-running from 10 returns 5 (found by the right-shift pass), so
minimize_integer applied twice differs from applying it once. -/
theorem minimize_integer_not_idempotent :
    minimizeInteger 12 p512 = some 10 ∧ minimizeInteger 10 p512 = some 5 ∧
    Option.bind (minimizeInteger 12 p512) (fun v => minimizeInteger v p512) ≠
      minimizeInteger 12 p512 := by
  refine ⟨by decide, by decide, by decide⟩

/-- Claim C5 amended: a second run of minimize_integer on the result of
a first run can only lower the value further (it never raises it), but
it is not the identity on it: idempotence fails. -/
theorem minimize_integer_second_run_le (p : Nat → Bool) (x v w : Nat)
    (_h1 : minimizeInteger x p = some v) (h2 : minimizeInteger v p = some w) :
    w ≤ v := by
  unfold minimizeInteger at h2
  cases hm : minimizeIntegerM (v + 1) v (pureCrit p) () with
  | ok u s => rw [hm] at h2; cases h2; exact minimizeIntegerM_ok_le hm
  | err e => rw [hm] at h2; cases h2
  | assertFailed => rw [hm] at h2; cases h2
  | fuelOut => rw [hm] at h2; cases h2

set_option maxRecDepth 8000 in
/-- Witness for amended C5 at the concrete counterexample inputs. -/
theorem minimize_integer_second_run_le_witness :
    minimizeInteger 12 p512 = some 10 ∧ minimizeInteger 10 p512 = some 5 ∧
    5 ≤ 10 := by
  refine ⟨by decide, by decide,
    minimize_integer_second_run_le p512 12 10 5 (by decide) (by decide)⟩

end Conjecture

namespace Conjecture

/-- Big-endian byte encoding of one word: k bytes, most significant
first, as byteorder WriteBytesExt write_u64 with BigEndian produces for
k = 8. -/
def beBytes : Nat → Nat → List Nat
  | 0, _ => []
  | k + 1, n => beBytes k (n / 256) ++ [n % 256]

/-- u64s_to_bytes (engine.rs): the words of the record encoded as 8
big-endian bytes each, concatenated. -/
def u64sToBytes (ints : List Nat) : List Nat :=
  ints.flatMap (fun n => beBytes 8 n)

/-- bytes_to_u64s (engine.rs): read big-endian u64 words until the
first short read; a trailing group of fewer than 8 bytes is dropped. -/
def bytesToU64s : List Nat → List Nat
  | b0 :: b1 :: b2 :: b3 :: b4 :: b5 :: b6 :: b7 :: rest =>
      (((((((b0 * 256 + b1) * 256 + b2) * 256 + b3) * 256 + b4) * 256 + b5) * 256
        + b6) * 256 + b7) :: bytesToU64s rest
  | _ => []

theorem bytesToU64s_cons (n : Nat) (rest : List Nat) (h : n < 2 ^ 64) :
    bytesToU64s (beBytes 8 n ++ rest) = n :: bytesToU64s rest := by
  simp only [beBytes, List.append_assoc, List.nil_append, List.cons_append,
    List.singleton_append]
  simp only [bytesToU64s]
  congr 1
  omega

end Conjecture

namespace Conjecture

/-- Claim C8: decoding the byte encoding of any record of u64 words
gives back the record: bytes_to_u64s(u64s_to_bytes(record)) == record. -/
theorem bytes_to_u64s_roundtrip (record : List Nat) (h : ∀ x ∈ record, x < 2 ^ 64) :
    bytesToU64s (u64sToBytes record) = record := by
  induction record with
  | nil => rfl
  | cons n rest ih =>
      have hn : n < 2 ^ 64 := h n (List.mem_cons_self n rest)
      have hr : ∀ x ∈ rest, x < 2 ^ 64 := fun x hx => h x (List.mem_cons_of_mem n hx)
      simp only [u64sToBytes, List.flatMap_cons]
      have : rest.flatMap (fun m => beBytes 8 m) = u64sToBytes rest := rfl
      rw [this, bytesToU64s_cons n _ hn, ih hr]

/-- Witness for C8 on a concrete record including the extreme word. -/
theorem bytes_to_u64s_roundtrip_witness :
    (∀ x ∈ [0, 1, 300, 18446744073709551615], x < 2 ^ 64) ∧
    bytesToU64s (u64sToBytes [0, 1, 300, 18446744073709551615]) =
      [0, 1, 300, 18446744073709551615] :=
  ⟨by decide, bytes_to_u64s_roundtrip _ (by decide)⟩

end Conjecture

namespace Conjecture

theorem then_lt_iff (o p : Ordering) :
    o.then p = Ordering.lt ↔ (o = Ordering.lt ∨ (o = Ordering.eq ∧ p = Ordering.lt)) := by
  cases o <;> simp [Ordering.then]

theorem then_eq_iff (o p : Ordering) :
    o.then p = Ordering.eq ↔ (o = Ordering.eq ∧ p = Ordering.eq) := by
  cases o <;> simp [Ordering.then]

theorem then_gt_iff (o p : Ordering) :
    o.then p = Ordering.gt ↔ (o = Ordering.gt ∨ (o = Ordering.eq ∧ p = Ordering.gt)) := by
  cases o <;> simp [Ordering.then]

theorem lexCmp_eq_iff : ∀ (xs ys : List Nat), lexCmp xs ys = Ordering.eq ↔ xs = ys := by
  intro xs
  induction xs with
  | nil => intro ys; cases ys <;> simp [lexCmp]
  | cons x xs ih =>
      intro ys
      cases ys with
      | nil => simp [lexCmp]
      | cons y ys =>
          simp only [lexCmp]
          rw [then_eq_iff, Nat.compare_eq_eq, ih]
          simp [List.cons.injEq]

theorem lexCmp_gt_iff : ∀ (xs ys : List Nat),
    lexCmp xs ys = Ordering.gt ↔ lexCmp ys xs = Ordering.lt := by
  intro xs
  induction xs with
  | nil => intro ys; cases ys <;> simp [lexCmp]
  | cons x xs ih =>
      intro ys
      cases ys with
      | nil => simp [lexCmp]
      | cons y ys =>
          simp only [lexCmp]
          rw [then_gt_iff, then_lt_iff, Nat.compare_eq_gt, Nat.compare_eq_eq,
            Nat.compare_eq_eq, Nat.compare_eq_lt, ih]
          constructor
          · rintro (h | ⟨h1, h2⟩)
            · exact Or.inl h
            · exact Or.inr ⟨h1.symm, h2⟩
          · rintro (h | ⟨h1, h2⟩)
            · exact Or.inl h
            · exact Or.inr ⟨h1.symm, h2⟩

theorem lexCmp_lt_iff_lex : ∀ (xs ys : List Nat),
    lexCmp xs ys = Ordering.lt ↔ List.Lex (· < ·) xs ys := by
  intro xs
  induction xs with
  | nil =>
      intro ys
      cases ys with
      | nil => simp [lexCmp]
      | cons y ys => exact ⟨fun _ => List.Lex.nil, fun _ => rfl⟩
  | cons x xs ih =>
      intro ys
      cases ys with
      | nil =>
          simp only [lexCmp]
          constructor
          · intro h; exact absurd h (by decide)
          · intro h; cases h
      | cons y ys =>
          simp only [lexCmp]
          rw [then_lt_iff, Nat.compare_eq_lt, Nat.compare_eq_eq, ih]
          constructor
          · rintro (h | ⟨rfl, h⟩)
            · exact List.Lex.rel h
            · exact List.Lex.cons h
          · intro h
            cases h with
            | cons h2 => exact Or.inr ⟨rfl, h2⟩
            | rel h2 => exact Or.inl h2

theorem lex_lt_trans : ∀ {xs ys zs : List Nat},
    List.Lex (· < ·) xs ys → List.Lex (· < ·) ys zs → List.Lex (· < ·) xs zs := by
  intro xs ys zs h1
  induction h1 generalizing zs with
  | nil =>
      intro h2
      cases h2 with
      | cons h => exact List.Lex.nil
      | rel h => exact List.Lex.nil
  | cons h ih =>
      intro h2
      cases h2 with
      | cons h3 => exact List.Lex.cons (ih h3)
      | rel h3 => exact List.Lex.rel h3
  | rel h =>
      intro h2
      cases h2 with
      | cons h3 => exact List.Lex.rel h
      | rel h3 => exact List.Lex.rel (Nat.lt_trans h h3)

theorem testresult_cmp_lt_iff (a b : TestResult) :
    TestResult.cmp a b = Ordering.lt ↔
      (a.record.length < b.record.length ∨
        (a.record.length = b.record.length ∧ lexCmp a.record b.record = Ordering.lt)) := by
  unfold TestResult.cmp
  rw [then_lt_iff, Nat.compare_eq_lt, Nat.compare_eq_eq]

theorem testresult_cmp_eq_iff (a b : TestResult) :
    TestResult.cmp a b = Ordering.eq ↔ a.record = b.record := by
  unfold TestResult.cmp
  rw [then_eq_iff, Nat.compare_eq_eq, lexCmp_eq_iff]
  constructor
  · intro h; exact h.2
  · intro h; exact ⟨by rw [h], h⟩

theorem testresult_cmp_gt_iff (a b : TestResult) :
    TestResult.cmp a b = Ordering.gt ↔ TestResult.cmp b a = Ordering.lt := by
  unfold TestResult.cmp
  rw [then_gt_iff, then_lt_iff, Nat.compare_eq_gt, Nat.compare_eq_eq,
    Nat.compare_eq_eq, Nat.compare_eq_lt, lexCmp_gt_iff]
  constructor
  · rintro (h | ⟨h1, h2⟩)
    · exact Or.inl h
    · exact Or.inr ⟨h1.symm, h2⟩
  · rintro (h | ⟨h1, h2⟩)
    · exact Or.inl h
    · exact Or.inr ⟨h1.symm, h2⟩

theorem testresult_lt_trans (a b c : TestResult)
    (hab : TestResult.lt a b) (hbc : TestResult.lt b c) : TestResult.lt a c := by
  rw [TestResult.lt, testresult_cmp_lt_iff, lexCmp_lt_iff_lex] at hab hbc ⊢
  rcases hab with h1 | ⟨h1, hx1⟩ <;> rcases hbc with h2 | ⟨h2, hx2⟩
  · exact Or.inl (by omega)
  · exact Or.inl (by omega)
  · exact Or.inl (by omega)
  · exact Or.inr ⟨by omega, lex_lt_trans hx1 hx2⟩

/-- Claim C7: the Ord implementation on TestResult is a total order in
which a is below b iff the record of a is shorter, or the lengths tie
and the record of a is lexicographically smaller; comparison equality
coincides with the PartialEq implementation (record equality); only the
record matters, not status, sizes, draws or written indices. -/
theorem testresult_order_spec :
    (∀ a b : TestResult, TestResult.lt a b ↔
        (a.record.length < b.record.length ∨
          (a.record.length = b.record.length ∧ List.Lex (· < ·) a.record b.record))) ∧
    (∀ a b : TestResult, TestResult.cmp a b = Ordering.eq ↔ a.record = b.record) ∧
    (∀ a b c : TestResult, TestResult.lt a b → TestResult.lt b c → TestResult.lt a c) ∧
    (∀ a b : TestResult, TestResult.lt a b → ¬ TestResult.lt b a) ∧
    (∀ a b : TestResult, TestResult.lt a b ∨ a.record = b.record ∨ TestResult.lt b a) := by
  have hlt : ∀ a b : TestResult, TestResult.lt a b ↔
      (a.record.length < b.record.length ∨
        (a.record.length = b.record.length ∧ List.Lex (· < ·) a.record b.record)) := by
    intro a b
    rw [TestResult.lt, testresult_cmp_lt_iff, lexCmp_lt_iff_lex]
  refine ⟨hlt, testresult_cmp_eq_iff, ?_, ?_, ?_⟩
  · exact testresult_lt_trans
  · intro a b hab hba
    rw [TestResult.lt] at hab hba
    rw [← testresult_cmp_gt_iff] at hba
    rw [hab] at hba
    exact absurd hba (by decide)
  · intro a b
    cases hc : TestResult.cmp a b with
    | lt => exact Or.inl hc
    | eq => exact Or.inr (Or.inl ((testresult_cmp_eq_iff a b).mp hc))
    | gt => exact Or.inr (Or.inr ((testresult_cmp_gt_iff a b).mp hc))

/-- Concrete result used by the order witness. -/
def trOrdA : TestResult := ⟨[1], Status.valid, [], [64], ∅⟩

/-- Concrete result above trOrdA in the order, for the witness. -/
def trOrdB : TestResult := ⟨[2], Status.overflow, [], [64], ∅⟩

/-- Concrete result with a longer record, above both, for the witness. -/
def trOrdC : TestResult := ⟨[0, 0], Status.interesting 3, [], [64, 64], ∅⟩

/-- Witness for C7 at concrete results: the order holds pairwise and
transitivity applies at them. -/
theorem testresult_order_spec_witness :
    TestResult.lt trOrdA trOrdB ∧ TestResult.lt trOrdB trOrdC ∧
    TestResult.lt trOrdA trOrdC :=
  ⟨by decide, by decide,
    testresult_order_spec.2.2.1 trOrdA trOrdB trOrdC (by decide) (by decide)⟩

end Conjecture

namespace Conjecture

/-- Claim C1 evaluated at its failing input: from_vec([42]) followed by
a successful write(7) and into_result(Valid) yields sizes = [0] (so the
set of indices with size 0 is the singleton 0) while written_indices is
empty: DataSource::write never inserts the position, leaving the
written_indices checks of the shrinker dead. -/
theorem write_does_not_record_index :
    (((DataSource.fromVec [42]).write 7).1 = some ()) ∧
    ((((DataSource.fromVec [42]).write 7).2.intoResult Status.valid).map
        TestResult.sizes = some [0]) ∧
    ((((DataSource.fromVec [42]).write 7).2.intoResult Status.valid).map
        TestResult.writtenIndices = some ∅) ∧
    (∅ : Finset Nat) ≠ {0} := by
  refine ⟨rfl, rfl, rfl, by decide⟩

/-- Counterexample to claim C2: a bits(8) call on an empty recorded
source fails, but has already pushed the width to sizes, so the
Overflow result it decays to has an empty record and a one-element
sizes list. -/
theorem failed_bits_unbalances_sizes :
    ((((DataSource.fromVec []).bits 8).2).intoResult Status.overflow).map
        (fun tr => (tr.record.length, tr.sizes.length)) = some (0, 1) ∧
    (0 : Nat) ≠ 1 := by
  refine ⟨rfl, by decide⟩

/-- One operation of the host against a data source. -/
inductive SourceOp where
  | bits : Nat → SourceOp
  | write : Nat → SourceOp
  | startDraw : SourceOp
  | stopDraw : SourceOp

/-- Run one operation; the boolean records whether it was a failed bits
call (the only operation that leaves sizes longer than record).  A
stop_draw on an empty stack panics the process, modelled as none. -/
def runOp (d : DataSource) : SourceOp → Option (DataSource × Bool)
  | SourceOp.bits n => some ((d.bits n).2, (d.bits n).1.isNone)
  | SourceOp.write v => some ((d.write v).2, false)
  | SourceOp.startDraw => some (d.startDraw, false)
  | SourceOp.stopDraw => d.stopDraw.map (fun d2 => (d2, false))

/-- Run a sequence of operations, counting failed bits calls. -/
def runOps : List SourceOp → DataSource → Option (DataSource × Nat)
  | [], d => some (d, 0)
  | op :: rest, d =>
      match runOp d op with
      | none => none
      | some (d1, b) =>
          match runOps rest d1 with
          | none => none
          | some (d2, n) => some (d2, (if b then 1 else 0) + n)

theorem runOp_sizes_length {d : DataSource} {op : SourceOp} {d1 : DataSource} {b : Bool}
    (h : runOp d op = some (d1, b)) :
    d1.sizes.length + d.record.length =
      d1.record.length + d.sizes.length + (if b then 1 else 0) := by
  cases op with
  | bits n =>
      simp only [runOp] at h
      cases h
      unfold DataSource.bits
      cases hg : d.bitgenerator with
      | random stream k => simp [hg]; omega
      | recorded v =>
          by_cases hl : d.record.length < v.length
          · simp [hg, hl]; omega
          · simp [hg, hl]; omega
  | write v =>
      simp only [runOp] at h
      cases h
      unfold DataSource.write
      cases hg : d.bitgenerator with
      | random stream k => simp [hg]; omega
      | recorded w =>
          by_cases hl : w.length ≤ d.record.length
          · simp [hg, hl]; omega
          · simp [hg, hl]; omega
  | startDraw =>
      simp only [runOp] at h
      cases h
      simp [DataSource.startDraw]
      omega
  | stopDraw =>
      simp only [runOp] at h
      unfold DataSource.stopDraw at h
      split at h
      · cases h
      · cases hg : d.drawStack.getLast? with
        | none => rw [hg] at h; cases h
        | some i => rw [hg] at h; cases h; simp; omega

theorem runOps_sizes_length :
    ∀ (ops : List SourceOp) (d0 d : DataSource) (n : Nat),
      runOps ops d0 = some (d, n) →
      d.sizes.length + d0.record.length = d.record.length + d0.sizes.length + n := by
  intro ops
  induction ops with
  | nil => intro d0 d n h; cases h; omega
  | cons op rest ih =>
      intro d0 d n h
      unfold runOps at h
      cases h1 : runOp d0 op with
      | none => rw [h1] at h; cases h
      | some db =>
          obtain ⟨d1, b⟩ := db
          rw [h1] at h
          dsimp only at h
          cases h2 : runOps rest d1 with
          | none => rw [h2] at h; cases h
          | some dn =>
              obtain ⟨d2, n2⟩ := dn
              rw [h2] at h
              cases h
              have ha := runOp_sizes_length h1
              have hb := ih d1 _ _ h2
              cases b <;> simp at ha ⊢ <;> omega

/-- Claim C2 amended: for every TestResult obtained from a source run
(starting from a fresh source, where sizes and record have equal
length), len(sizes) = len(record) + the number of failed bits() calls;
so the two lengths are equal exactly when no bits() call failed, and
each failed bits() call (an Overflow-producing exhausted read) leaves
sizes one element longer. -/
theorem result_sizes_length (ops : List SourceOp) (d0 d : DataSource) (n : Nat)
    (status : Status) (tr : TestResult)
    (h0 : d0.sizes.length = d0.record.length)
    (h : runOps ops d0 = some (d, n))
    (h2 : d.intoResult status = some tr) :
    tr.sizes.length = tr.record.length + n := by
  have := runOps_sizes_length ops d0 d n h
  unfold DataSource.intoResult at h2
  split at h2
  · cases h2
  · cases h2
    dsimp only
    omega

/-- The Overflow result of the single failed bits(8) call on an empty
recorded source, used by the amended C2 witness. -/
def trOvfW : TestResult := ⟨[], Status.overflow, [], [8], ∅⟩

/-- Witness for amended C2: the single failed bits(8) call on an empty
recorded source gives n = 1 and sizes one longer than record. -/
theorem result_sizes_length_witness :
    (runOps [SourceOp.bits 8] (DataSource.fromVec []) =
      some (((DataSource.fromVec []).bits 8).2, 1)) ∧
    ((((DataSource.fromVec []).bits 8).2).intoResult Status.overflow = some trOvfW) ∧
    trOvfW.sizes.length = trOvfW.record.length + 1 :=
  ⟨rfl, rfl,
    result_sizes_length [SourceOp.bits 8] (DataSource.fromVec [])
      ((DataSource.fromVec []).bits 8).2 1 Status.overflow trOvfW rfl rfl rfl⟩

end Conjecture

namespace Conjecture

/-! ## Main generation loop (engine.rs, MainGenerationLoop)

The observable state of the loop: the example counters, the best
example, the per-label minimized examples map (a HashMap in the source,
an association list here) and the fully_minimized label set.  The
channels, PRNG, database handle and configuration fields of the struct
are runtime plumbing; the database save and delete calls performed
alongside map updates do not feed back into this state and are not
modelled.
-/

structure GenState where
  validExamples : Nat
  invalidExamples : Nat
  interestingExamples : Nat
  bestExample : Option TestResult
  minimizedExamples : List (Nat × TestResult)
  fullyMinimized : List Nat
deriving DecidableEq

/-- Lookup of a label in the minimized examples map. -/
def alookup (n : Nat) : List (Nat × TestResult) → Option TestResult
  | [] => none
  | (m, r) :: rest => if m = n then some r else alookup n rest

/-- Replacement of the entry of a label, keeping its position. -/
def aupdate (n : Nat) (r : TestResult) : List (Nat × TestResult) → List (Nat × TestResult)
  | [] => []
  | (m, e) :: rest => if m = n then (m, r) :: rest else (m, e) :: aupdate n r rest

/-- The bookkeeping of MainGenerationLoop::execute on one received
result: Overflow touches nothing, Invalid and Valid bump their
counters, and Interesting(n) sets best_example, inserts the result as
the entry of n when absent (entry().or_insert_with), replaces the entry
when the result is strictly smaller (and_modify with the Ord lt),
un-marks n in fully_minimized exactly when a replacement happened, and
bumps interesting_examples. -/
def executeBookkeeping (g : GenState) (result : TestResult) : GenState :=
  match result.status with
  | Status.overflow => g
  | Status.invalid => { g with invalidExamples := g.invalidExamples + 1 }
  | Status.valid => { g with validExamples := g.validExamples + 1 }
  | Status.interesting n =>
      match alookup n g.minimizedExamples with
      | none =>
          { g with
            bestExample := some result
            minimizedExamples := g.minimizedExamples ++ [(n, result)]
            interestingExamples := g.interestingExamples + 1 }
      | some e =>
          if TestResult.lt result e then
            { g with
              bestExample := some result
              minimizedExamples := aupdate n result g.minimizedExamples
              fullyMinimized := g.fullyMinimized.filter (fun m => m ≠ n)
              interestingExamples := g.interestingExamples + 1 }
          else
            { g with
              bestExample := some result
              interestingExamples := g.interestingExamples + 1 }

/-- Outcome of the generation phase: first interesting result found,
normal exit reporting MaxExamples, or fuel exhaustion (the while loop
of the source is still running after that many executions). -/
inductive GenOut where
  | found : TestResult → GenState → GenOut
  | maxExamples : GenState → GenOut
  | outOfFuel : GenOut
deriving DecidableEq

/-- Whether a status is Interesting. -/
def isInteresting : Status → Bool
  | Status.interesting _ => true
  | _ => false

/-- MainGenerationLoop::generate_examples.  While valid < max_examples
and invalid < 10 * max_examples, execute a fresh source (the stream
abstracts the results the host returns for the successive random
sources) and return the first Interesting result.  Fuel bounds the
number of loop iterations the model can take. -/
def generateExamples (fuel mx : Nat) (g : GenState) (stream : Nat → TestResult)
    (k : Nat) : GenOut :=
  if g.validExamples < mx ∧ g.invalidExamples < 10 * mx then
    match fuel with
    | 0 => GenOut.outOfFuel
    | fuel + 1 =>
        let result := stream k
        let g1 := executeBookkeeping g result
        if isInteresting result.status then GenOut.found result g1
        else generateExamples fuel mx g1 stream (k + 1)
  else GenOut.maxExamples g

/-- The empty loop state the engine starts from. -/
def genStateInit : GenState := ⟨0, 0, 0, none, [], []⟩

/-- An Overflow result, as arises from an exhausted source. -/
def ovfResult : TestResult := ⟨[], Status.overflow, [], [], ∅⟩

/-- An Invalid result. -/
def invResult : TestResult := ⟨[], Status.invalid, [], [], ∅⟩

set_option maxRecDepth 4000 in
/-- Counterexample to claim C3: with max_examples 1 (cap 10) and every
execution returning Overflow, the generation loop is still running
after 100 executions, because the Overflow arm of execute increments no
counter at all; if Overflow counted toward the cap the loop would have
exited within 10 executions. -/
theorem overflow_not_counted :
    generateExamples 100 1 genStateInit (fun _ => ovfResult) 0 = GenOut.outOfFuel ∧
    executeBookkeeping genStateInit ovfResult = genStateInit := by
  exact ⟨rfl, rfl⟩

/-- Claim C3 amended: only Invalid executions count toward the
10 * max_examples cap (Valid has its own max_examples bound); an
Overflow execution changes nothing, so the generation phase is
guaranteed to terminate when every execution is Invalid, but not when
every execution is Overflow. -/
theorem invalid_counts_toward_cap :
    (∀ (g : GenState) (r : TestResult), r.status = Status.invalid →
        (executeBookkeeping g r).invalidExamples = g.invalidExamples + 1 ∧
        (executeBookkeeping g r).validExamples = g.validExamples) ∧
    (∀ (g : GenState) (r : TestResult), r.status = Status.overflow →
        executeBookkeeping g r = g) ∧
    (∀ (mx : Nat) (stream : Nat → TestResult),
        (∀ k, (stream k).status = Status.invalid) →
        ∀ (fuel : Nat) (g : GenState) (k : Nat),
          10 * mx ≤ g.invalidExamples + fuel →
          generateExamples fuel mx g stream k ≠ GenOut.outOfFuel) := by
  refine ⟨?_, ?_, ?_⟩
  · intro g r h
    unfold executeBookkeeping
    rw [h]
    exact ⟨rfl, rfl⟩
  · intro g r h
    unfold executeBookkeeping
    rw [h]
  · intro mx stream hstream fuel
    induction fuel with
    | zero =>
        intro g k hcap
        unfold generateExamples
        split
        · rename_i hg; omega
        · intro h; cases h
    | succ n ih =>
        intro g k hcap
        unfold generateExamples
        split
        · dsimp only
          have hst := hstream k
          have hinv : (executeBookkeeping g (stream k)).invalidExamples =
              g.invalidExamples + 1 := by
            unfold executeBookkeeping; rw [hst]
          have hint : isInteresting (stream k).status = false := by rw [hst]; rfl
          rw [hint]
          simp only [Bool.false_eq_true, if_false]
          exact ih (executeBookkeeping g (stream k)) (k + 1) (by omega)
        · intro h; cases h

/-- Witness for amended C3: an Invalid result bumps the invalid counter
and not the valid one, an Overflow result changes nothing, and an
all-Invalid stream with fuel covering the cap does not leave the loop
running. -/
theorem invalid_counts_toward_cap_witness :
    ((executeBookkeeping genStateInit invResult).invalidExamples = 1 ∧
      (executeBookkeeping genStateInit invResult).validExamples = 0) ∧
    executeBookkeeping genStateInit ovfResult = genStateInit ∧
    generateExamples 10 1 genStateInit (fun _ => invResult) 0 ≠ GenOut.outOfFuel := by
  refine ⟨?_, ?_, ?_⟩
  · exact invalid_counts_toward_cap.1 genStateInit invResult rfl
  · exact invalid_counts_toward_cap.2.1 genStateInit ovfResult rfl
  · exact invalid_counts_toward_cap.2.2 1 (fun _ => invResult) (fun _ => rfl) 10
      genStateInit 0 (by omega)

end Conjecture

namespace Conjecture

theorem alookup_append_some {n : Nat} {e : TestResult} :
    ∀ (l l2 : List (Nat × TestResult)), alookup n l = some e →
      alookup n (l ++ l2) = some e := by
  intro l
  induction l with
  | nil => intro l2 h; cases h
  | cons p rest ih =>
      intro l2 h
      obtain ⟨m, r⟩ := p
      simp only [alookup, List.cons_append] at h ⊢
      by_cases hm : m = n
      · rw [if_pos hm] at h ⊢; exact h
      · rw [if_neg hm] at h ⊢; exact ih l2 h

theorem alookup_append_none {n : Nat} {r : TestResult} :
    ∀ (l : List (Nat × TestResult)), alookup n l = none →
      alookup n (l ++ [(n, r)]) = some r := by
  intro l
  induction l with
  | nil =>
      intro _
      simp [alookup]
  | cons p rest ih =>
      intro h
      obtain ⟨m, s⟩ := p
      simp only [alookup, List.cons_append] at h ⊢
      by_cases hm : m = n
      · rw [if_pos hm] at h; cases h
      · rw [if_neg hm] at h ⊢; exact ih h

theorem alookup_aupdate_self {n : Nat} {e r : TestResult} :
    ∀ (l : List (Nat × TestResult)), alookup n l = some e →
      alookup n (aupdate n r l) = some r := by
  intro l
  induction l with
  | nil => intro h; cases h
  | cons p rest ih =>
      intro h
      obtain ⟨m, s⟩ := p
      simp only [alookup, aupdate] at h ⊢
      by_cases hm : m = n
      · rw [if_pos hm] at h
        rw [if_pos hm]
        simp only [alookup]
        rw [if_pos hm]
      · rw [if_neg hm] at h
        rw [if_neg hm]
        simp only [alookup]
        rw [if_neg hm]
        exact ih h

theorem alookup_aupdate_ne {m n : Nat} {r : TestResult} (hmn : m ≠ n) :
    ∀ (l : List (Nat × TestResult)), alookup n (aupdate m r l) = alookup n l := by
  intro l
  induction l with
  | nil => rfl
  | cons p rest ih =>
      obtain ⟨m1, s⟩ := p
      simp only [aupdate]
      by_cases hm : m1 = m
      · rw [if_pos hm]
        simp only [alookup]
        have hne : ¬ m1 = n := by rw [hm]; exact hmn
        rw [if_neg hne, if_neg hne]
      · rw [if_neg hm]
        simp only [alookup]
        by_cases hn : m1 = n
        · rw [if_pos hn, if_pos hn]
        · rw [if_neg hn, if_neg hn]
          exact ih

theorem executeBookkeeping_entry_mono {g : GenState} {r : TestResult} {n : Nat}
    {e : TestResult} (he : alookup n g.minimizedExamples = some e) :
    ∃ e1, alookup n (executeBookkeeping g r).minimizedExamples = some e1 ∧
      (e1 = e ∨ TestResult.lt e1 e) := by
  cases hs : r.status with
  | overflow => simp only [executeBookkeeping, hs]; exact ⟨e, he, Or.inl rfl⟩
  | invalid => simp only [executeBookkeeping, hs]; exact ⟨e, he, Or.inl rfl⟩
  | valid => simp only [executeBookkeeping, hs]; exact ⟨e, he, Or.inl rfl⟩
  | interesting m =>
      cases hl : alookup m g.minimizedExamples with
      | none =>
          simp only [executeBookkeeping, hs, hl]
          exact ⟨e, alookup_append_some _ _ he, Or.inl rfl⟩
      | some e0 =>
          simp only [executeBookkeeping, hs, hl]
          by_cases hlt : TestResult.lt r e0
          · rw [if_pos hlt]
            by_cases hmn : m = n
            · subst hmn
              rw [hl] at he
              injection he with he
              subst he
              exact ⟨r, alookup_aupdate_self _ hl, Or.inr hlt⟩
            · refine ⟨e, ?_, Or.inl rfl⟩
              dsimp only
              rw [alookup_aupdate_ne hmn]
              exact he
          · rw [if_neg hlt]
            exact ⟨e, he, Or.inl rfl⟩

/-- Claim C6: the per-label minimized example never gets worse.  Every
execute step either leaves the entry of a label alone, inserts a first
entry for a fresh label, or replaces the entry with a strictly smaller
result in the TestResult order; hence over any run, an entry can only
stay equal or strictly decrease. -/
theorem minimized_entry_monotone :
    (∀ (g : GenState) (r : TestResult) (n : Nat) (e e1 : TestResult),
        alookup n g.minimizedExamples = some e →
        alookup n (executeBookkeeping g r).minimizedExamples = some e1 →
        e1 = e ∨ TestResult.lt e1 e) ∧
    (∀ (g : GenState) (r : TestResult) (n : Nat),
        r.status = Status.interesting n →
        alookup n g.minimizedExamples = none →
        alookup n (executeBookkeeping g r).minimizedExamples = some r) ∧
    (∀ (rs : List TestResult) (g : GenState) (n : Nat) (e e1 : TestResult),
        alookup n g.minimizedExamples = some e →
        alookup n (rs.foldl executeBookkeeping g).minimizedExamples = some e1 →
        e1 = e ∨ TestResult.lt e1 e) := by
  refine ⟨?_, ?_, ?_⟩
  · intro g r n e e1 he he1
    obtain ⟨e2, he2, hd⟩ := executeBookkeeping_entry_mono (r := r) he
    rw [he2] at he1
    injection he1 with he1
    rw [← he1]
    exact hd
  · intro g r n hs hl
    simp only [executeBookkeeping, hs, hl]
    exact alookup_append_none _ hl
  · intro rs
    induction rs with
    | nil =>
        intro g n e e1 he he1
        rw [List.foldl_nil] at he1
        rw [he] at he1
        injection he1 with he1
        exact Or.inl he1.symm
    | cons r rs ih =>
        intro g n e e1 he he1
        rw [List.foldl_cons] at he1
        obtain ⟨e2, he2, hd⟩ := executeBookkeeping_entry_mono (r := r) he
        have hrec := ih (executeBookkeeping g r) n e2 e1 he2 he1
        rcases hrec with rfl | h1 <;> rcases hd with rfl | h2
        · exact Or.inl rfl
        · exact Or.inr h2
        · exact Or.inr h1
        · exact Or.inr (testresult_lt_trans _ _ _ h1 h2)

/-- An interesting result for label 3 with a two-word record, the
initial map entry in the C6 witness. -/
def trIntB : TestResult := ⟨[0, 1], Status.interesting 3, [], [64, 64], ∅⟩

/-- A strictly smaller interesting result for label 3, arriving later
in the C6 witness. -/
def trIntA : TestResult := ⟨[1], Status.interesting 3, [], [64], ∅⟩

/-- A loop state whose map has trIntB as the entry of label 3. -/
def gWitness : GenState := ⟨0, 0, 1, some trIntB, [(3, trIntB)], [3]⟩

/-- Witness for C6: at the concrete state, the incoming smaller result
replaces the entry and the theorem certifies the entry did not grow. -/
theorem minimized_entry_monotone_witness :
    alookup 3 gWitness.minimizedExamples = some trIntB ∧
    alookup 3 (executeBookkeeping gWitness trIntA).minimizedExamples = some trIntA ∧
    (trIntA = trIntB ∨ TestResult.lt trIntA trIntB) := by
  refine ⟨by decide, by decide, ?_⟩
  exact minimized_entry_monotone.1 gWitness trIntA 3 trIntB trIntA (by decide) (by decide)

end Conjecture

namespace Conjecture

/-! ## Engine facade (engine.rs, struct Engine)

The host-visible state machine: the cached loop_response, the
ReadyToProvide / AwaitingCompletion state, and the worker-to-host
channel contents, modelled as the list of commands the worker will
deliver.  Joining the worker thread after a final message, performed by
await_thread_termination, has no observable effect on this state and is
not modelled.
-/

/-- Loop exit reasons (engine.rs, enum LoopExitReason). -/
inductive LoopExitReason where
  | complete : LoopExitReason
  | maxExamples : LoopExitReason
  | shutdown : LoopExitReason
deriving DecidableEq

/-- Worker-to-host commands (engine.rs, enum LoopCommand).  The source
Finished carries the whole MainGenerationLoop value; its observable
part is the GenState modelled above. -/
inductive LoopCommand where
  | runThis : DataSource → LoopCommand
  | finished : LoopExitReason → GenState → LoopCommand

/-- Engine states (engine.rs, enum EngineState). -/
inductive EngineState where
  | awaitingCompletion : EngineState
  | readyToProvide : EngineState
deriving DecidableEq

/-- The host-side engine (engine.rs, struct Engine), with the channel
receiver modelled as the list of commands still to arrive. -/
structure Engine where
  loopResponse : Option LoopCommand
  state : EngineState
  incoming : List LoopCommand

/-- Engine::await_loop_response: if no response is cached, receive the
next command from the worker channel; an empty channel means the worker
vanished without a final message, which the source turns into a panic
(none here). -/
def Engine.awaitLoopResponse (e : Engine) : Option Engine :=
  match e.loopResponse with
  | some _ => some e
  | none =>
      match e.incoming with
      | [] => none
      | m :: rest => some { e with loopResponse := some m, incoming := rest }

/-- Engine::next_source.  Asserts ReadyToProvide (a failed assert or
an internal panic is Except.error with the panic message), moves to
AwaitingCompletion, awaits a response, then takes the response out:
a RunThis yields its source and clears the cache, while a Finished
response is put back (mem swap out, then restored), so the final
message stays cached and None is returned. -/
def Engine.nextSource (e : Engine) : Except String (Option DataSource × Engine) :=
  if e.state = EngineState.readyToProvide then
    let e1 : Engine := { e with state := EngineState.awaitingCompletion }
    match e1.awaitLoopResponse with
    | none => Except.error "BUG: Unexpected silent termination of generation loop."
    | some e2 =>
        match e2.loopResponse with
        | some (LoopCommand.runThis s) => Except.ok (some s, { e2 with loopResponse := none })
        | some (LoopCommand.finished _ _) => Except.ok (none, e2)
        | none => Except.error "BUG: Loop response should not be empty at this point"
  else Except.error "assertion failed: self.state == EngineState::ReadyToProvide"

/-- The concrete final message used in the C4 counterexample. -/
def finCmd : LoopCommand := LoopCommand.finished LoopExitReason.complete genStateInit

/-- An engine ready to provide with a pending Finished message. -/
def engReady : Engine := ⟨none, EngineState.readyToProvide, [finCmd]⟩

/-- Counterexample to claim C4: the first next_source call on an engine
whose worker has sent Finished returns no-more-sources and caches the
message, but it leaves the state AwaitingCompletion, so an immediate
second next_source call fails the ReadyToProvide assertion (a panic)
instead of returning no-more-sources again. -/
theorem next_source_second_call_fails :
    Engine.nextSource engReady =
      Except.ok (none, ⟨some finCmd, EngineState.awaitingCompletion, []⟩) ∧
    Engine.nextSource ⟨some finCmd, EngineState.awaitingCompletion, []⟩ =
      Except.error "assertion failed: self.state == EngineState::ReadyToProvide" := by
  exact ⟨rfl, rfl⟩

/-- Claim C4 amended: the Finished message is sticky as data: a
next_source call that returns no-more-sources keeps the message cached
in loop_response (where the query operations read it on every later
call), but the call leaves the engine in AwaitingCompletion, so calling
next_source again with no intervening operation trips the
ReadyToProvide assertion rather than returning no-more-sources. -/
theorem next_source_finished_sticky (e : Engine) (r : LoopExitReason) (gs : GenState)
    (h1 : e.state = EngineState.readyToProvide)
    (h2 : e.loopResponse = some (LoopCommand.finished r gs)) :
    Engine.nextSource e =
      Except.ok (none, { e with state := EngineState.awaitingCompletion }) ∧
    ({ e with state := EngineState.awaitingCompletion } : Engine).loopResponse =
      some (LoopCommand.finished r gs) ∧
    Engine.nextSource { e with state := EngineState.awaitingCompletion } =
      Except.error "assertion failed: self.state == EngineState::ReadyToProvide" := by
  refine ⟨?_, h2, ?_⟩
  · unfold Engine.nextSource
    rw [if_pos h1]
    unfold Engine.awaitLoopResponse
    dsimp only
    rw [h2]
  · unfold Engine.nextSource
    rw [if_neg (by simp)]

/-- Witness for amended C4 at a concrete already-cached engine. -/
theorem next_source_finished_sticky_witness :
    Engine.nextSource ⟨some finCmd, EngineState.readyToProvide, []⟩ =
      Except.ok (none, ⟨some finCmd, EngineState.awaitingCompletion, []⟩) ∧
    (⟨some finCmd, EngineState.awaitingCompletion, []⟩ : Engine).loopResponse =
      some finCmd ∧
    Engine.nextSource ⟨some finCmd, EngineState.awaitingCompletion, []⟩ =
      Except.error "assertion failed: self.state == EngineState::ReadyToProvide" :=
  next_source_finished_sticky ⟨some finCmd, EngineState.readyToProvide, []⟩
    LoopExitReason.complete genStateInit rfl rfl

end Conjecture
